import Mathlib

set_option maxHeartbeats 1000000
set_option linter.dupNamespace false

/-!
Verification development for the comet DSL compiler front-end / program
synthesizer.  The definitions below are a shallow embedding of the Rust
sources:

  * `src/comet/constraints.rs`  — constraint algebra (`Atom`, `expand`,
    `matches_chain`);
  * `src/comet/ir.rs`           — execution graph (`ExecutionNode`,
    `ExecutionGraph.add_node`);
  * `src/comet/synthesis.rs`    — the synthesizer (`Synthesizer::synthesize`,
    `evaluate_expr`, `check_args_match`, `collect_variants`,
    `fully_expand_chain`);
  * `src/comet/semantics.rs`    — symbol-table population
    (`SemanticAnalyzer::register_declaration`).

Modelling conventions:

  * Rust `HashSet<Vec<Atom>>` becomes `Finset (List Atom)`; hash sets carry
    no order and compare as sets, exactly like `Finset`.
  * Rust `HashMap` keyed by `String` becomes an association list
    (`List (String × _)`) with overwrite-on-insert.  The synthesizer
    iterates the `functions` map in unspecified hash order; the embedding
    fixes the association-list order (a determinization that does not
    affect any property proved here).
  * The recursive synthesis functions in `synthesis.rs` can diverge on
    recursive flows (the source imposes no recursion limit); the embedding
    threads an explicit fuel argument and answers
    `SynthesisError.SynthesisError "recursion limit exceeded"` when the
    fuel runs out.  Every theorem either fixes a concrete, sufficiently
    large fuel or is conditioned on the computation succeeding.
  * The AST types consumed by `synthesis.rs` (`Constraint`, `TypedArg`,
    `ArgValue`, `FlowStmt`, `Expr`) are not the ones in the checked-in
    `ast.rs` (that file belongs to an older revision of the crate); their
    shapes are reconstructed from their uses in `synthesis.rs`,
    `constraints.rs` and `parser.rs`.
  * Floating-point literals (`Literal::Float`) are omitted from the
    embedding; no property below concerns them.
-/

namespace Comet

abbrev Ident := String

/-- `constraints.rs` — `enum Atom { Type(String), Variable(String) }`. -/
inductive Atom where
  | ty (name : String)
  | var (name : String)
deriving DecidableEq, Repr

/-- Lexicographic comparison of character lists by codepoint (UTF-8
byte order and codepoint order coincide, so this is Rust's `String`
ordering). -/
def charsLe : List Char → List Char → Bool
  | [], _ => true
  | _ :: _, [] => false
  | c :: cs, d :: ds =>
      if c.toNat = d.toNat then charsLe cs ds else decide (c.toNat < d.toNat)

/-- `s1 ≤ s2` in Rust's `String::cmp` order. -/
def stringLe (s1 s2 : String) : Bool :=
  charsLe s1.data s2.data

/-- The atom comparator of `constraints.rs` (`Type` sorts before
`Variable`, then by name), as a total `≤` test. -/
def atomLe : Atom → Atom → Bool
  | .ty s1, .ty s2 => stringLe s1 s2
  | .var s1, .var s2 => stringLe s1 s2
  | .ty _, .var _ => true
  | .var _, .ty _ => false

theorem charsLe_total (l1 l2 : List Char) : charsLe l1 l2 = true ∨ charsLe l2 l1 = true := by
  induction l1 generalizing l2 with
  | nil => exact Or.inl rfl
  | cons c cs ih =>
      cases l2 with
      | nil => exact Or.inr rfl
      | cons d ds =>
          by_cases h : c.toNat = d.toNat
          · rcases ih ds with h' | h'
            · refine Or.inl ?_
              simp only [charsLe]
              rw [if_pos h]
              exact h'
            · refine Or.inr ?_
              simp only [charsLe]
              rw [if_pos h.symm]
              exact h'
          · by_cases hlt : c.toNat < d.toNat
            · refine Or.inl ?_
              simp only [charsLe]
              rw [if_neg h]
              exact decide_eq_true hlt
            · refine Or.inr ?_
              simp only [charsLe]
              rw [if_neg (fun hh => h hh.symm)]
              exact decide_eq_true (by omega)

theorem charsLe_antisymm {l1 l2 : List Char} (h1 : charsLe l1 l2 = true)
    (h2 : charsLe l2 l1 = true) : l1 = l2 := by
  induction l1 generalizing l2 with
  | nil =>
      cases l2 with
      | nil => rfl
      | cons d ds => simp [charsLe] at h2
  | cons c cs ih =>
      cases l2 with
      | nil => simp [charsLe] at h1
      | cons d ds =>
          simp only [charsLe] at h1 h2
          by_cases h : c.toNat = d.toNat
          · have hc : c = d := Char.ext (UInt32.ext h)
            rw [if_pos h] at h1
            rw [if_pos h.symm] at h2
            rw [hc, ih h1 h2]
          · rw [if_neg h] at h1
            rw [if_neg (fun hh => h hh.symm)] at h2
            have h1' := of_decide_eq_true h1
            have h2' := of_decide_eq_true h2
            omega

theorem charsLe_trans {l1 l2 l3 : List Char} (h1 : charsLe l1 l2 = true)
    (h2 : charsLe l2 l3 = true) : charsLe l1 l3 = true := by
  induction l1 generalizing l2 l3 with
  | nil => rfl
  | cons c cs ih =>
      cases l2 with
      | nil => simp [charsLe] at h1
      | cons d ds =>
          cases l3 with
          | nil => simp [charsLe] at h2
          | cons e es =>
              simp only [charsLe] at h1 h2 ⊢
              by_cases hcd : c.toNat = d.toNat <;> by_cases hde : d.toNat = e.toNat
              · rw [if_pos hcd] at h1
                rw [if_pos hde] at h2
                rw [if_pos (hcd.trans hde)]
                exact ih h1 h2
              · rw [if_pos hcd] at h1
                rw [if_neg hde] at h2
                have h2' : d.toNat < e.toNat := of_decide_eq_true h2
                rw [if_neg (by omega)]
                exact decide_eq_true (by omega)
              · rw [if_neg hcd] at h1
                rw [if_pos hde] at h2
                have h1' : c.toNat < d.toNat := of_decide_eq_true h1
                rw [if_neg (by omega)]
                exact decide_eq_true (by omega)
              · rw [if_neg hcd] at h1
                rw [if_neg hde] at h2
                have h1' : c.toNat < d.toNat := of_decide_eq_true h1
                have h2' : d.toNat < e.toNat := of_decide_eq_true h2
                rw [if_neg (by omega)]
                exact decide_eq_true (by omega)

theorem atomLe_total (a b : Atom) : atomLe a b = true ∨ atomLe b a = true := by
  cases a <;> cases b <;> simp [atomLe] <;> exact charsLe_total _ _

theorem atomLe_antisymm {a b : Atom} (h1 : atomLe a b = true) (h2 : atomLe b a = true) :
    a = b := by
  cases a <;> cases b <;> simp_all [atomLe, stringLe] <;>
    · apply String.ext
      exact charsLe_antisymm h1 h2

theorem atomLe_trans {a b c : Atom} (h1 : atomLe a b = true) (h2 : atomLe b c = true) :
    atomLe a c = true := by
  cases a <;> cases b <;> cases c <;> simp_all [atomLe, stringLe] <;>
    exact charsLe_trans h1 h2

/-- Insert an atom into a chain sorted by the comparator of
`constraints.rs` (insertion sort; the source uses `sort_by`, but chains
are duplicate-free so any sort by this total order yields the same
list). -/
def insertSorted (a : Atom) : List Atom → List Atom
  | [] => [a]
  | b :: rest => if atomLe a b then a :: b :: rest else b :: insertSorted a rest

theorem insertSorted_comm (a b : Atom) (l : List Atom) :
    insertSorted a (insertSorted b l) = insertSorted b (insertSorted a l) := by
  induction l with
  | nil =>
      by_cases hab : atomLe a b = true <;> by_cases hba : atomLe b a = true
      · rw [atomLe_antisymm hab hba]
      · simp [insertSorted, hab, hba]
      · simp [insertSorted, hab, hba]
      · rcases atomLe_total a b with h | h
        · exact absurd h hab
        · exact absurd h hba
  | cons c l ih =>
      by_cases hac : atomLe a c = true <;> by_cases hbc : atomLe b c = true
      · by_cases hab : atomLe a b = true <;> by_cases hba : atomLe b a = true
        · rw [atomLe_antisymm hab hba]
        · simp [insertSorted, hab, hba, hac, hbc]
        · simp [insertSorted, hab, hba, hac, hbc]
        · rcases atomLe_total a b with h | h
          · exact absurd h hab
          · exact absurd h hba
      · have hba : atomLe b a = false := by
          cases h : atomLe b a with
          | false => rfl
          | true => exact absurd (atomLe_trans h hac) hbc
        simp [insertSorted, hac, hbc, hba]
      · have hab : atomLe a b = false := by
          cases h : atomLe a b with
          | false => rfl
          | true => exact absurd (atomLe_trans h hbc) hac
        simp [insertSorted, hac, hbc, hab]
      · simp [insertSorted, hac, hbc, ih]

instance : LeftCommutative insertSorted := ⟨insertSorted_comm⟩

/-- Deterministic enumeration of a finite atom set, sorted by `atomLe`
(insertion-sort fold over the underlying multiset; well defined by
`insertSorted_comm`). -/
def sortAtoms (s : Finset Atom) : List Atom :=
  Multiset.foldr insertSorted [] s.val

/-- Canonical sorting of a chain (`combined.sort_by(...)` in
`constraints.rs` and `fully_expand_chain`). -/
def sortChain (l : List Atom) : List Atom :=
  l.foldr insertSorted []

/-- One step of the `Addition` fold of `expand`: append the atoms of
`incoming` that are not already present, then sort canonically. -/
def combineChain (existing incoming : List Atom) : List Atom :=
  sortChain (incoming.foldl (fun acc a => if a ∈ acc then acc else acc ++ [a]) existing)

mutual

/-- The AST constraint tree used by `constraints.rs` and
`synthesis.rs`.  The `Vec<Constraint>` children of `Addition` and
`Union` are represented by the isomorphic mutual list type
`ConstraintList` (so that the expansion functions below are structurally
recursive and compute inside the kernel). -/
inductive Constraint where
  | atom (name : String)
  | addition (cs : ConstraintList)
  | union (cs : ConstraintList)
  | subtraction (lhs rhs : Constraint)
  | none
deriving Repr, DecidableEq

/-- `Vec<Constraint>` (see `Constraint`). -/
inductive ConstraintList where
  | nil
  | cons (c : Constraint) (rest : ConstraintList)
deriving Repr, DecidableEq

end

/-- `name.starts_with("'")` — the variable sigil test of the `Atom`
arm of `expand` (spelled on the character list so that it reduces in
the kernel). -/
def sigiled (name : String) : Bool :=
  match name.data with
  | [] => false
  | c :: _ => c = '\x27'

/-- Build a `ConstraintList` from a `List Constraint`. -/
def cl : List Constraint → ConstraintList
  | [] => .nil
  | c :: rest => .cons c (cl rest)

/-- `ConstraintSet` — `HashSet<Vec<Atom>>` in `constraints.rs`. -/
abbrev ConstraintSet := Finset (List Atom)

mutual

/-- `constraints.rs::expand` — normalize a constraint into a set of
chains.  In the `Subtraction` arm the body of `matches_chain` is
inlined (the source calls `matches_chain(chain, rhs)`, which re-expands
`rhs` to the same set); `expand_subtraction` below restates the arm in
terms of `matches_chain`. -/
def expand : Constraint → ConstraintSet
  | .atom name =>
      if sigiled name then {[Atom.var name]} else {[Atom.ty name]}
  | .addition cs => expandAddition cs {([] : List Atom)}
  | .union cs => expandUnion cs
  | .subtraction lhs rhs =>
      let rset := expand rhs
      (expand lhs).filter (fun chain => ¬ ∃ req ∈ rset, ∀ a ∈ req, a ∈ chain)
  | .none => (∅ : ConstraintSet)

/-- The `Addition` fold of `expand` (pairwise combination of every
existing chain with every incoming chain). -/
def expandAddition : ConstraintList → ConstraintSet → ConstraintSet
  | .nil, acc => acc
  | .cons c rest, acc =>
      expandAddition rest (acc.biUnion fun existing => (expand c).image (combineChain existing))

/-- The `Union` arm of `expand` (set union of the expansions). -/
def expandUnion : ConstraintList → ConstraintSet
  | .nil => (∅ : ConstraintSet)
  | .cons c rest => expand c ∪ expandUnion rest

end

/-- `constraints.rs::matches_chain` — true iff some chain of
`expand constraint` is an atom-wise subset of `chain`. -/
def matches_chain (chain : List Atom) (constraint : Constraint) : Bool :=
  decide (∃ req ∈ expand constraint, ∀ a ∈ req, a ∈ chain)

/-- The `Subtraction` arm of `expand`, restated through
`matches_chain` exactly as in `constraints.rs`. -/
theorem expand_subtraction (lhs rhs : Constraint) :
    expand (.subtraction lhs rhs) =
      (expand lhs).filter (fun chain => matches_chain chain rhs = false) := by
  show Finset.filter _ _ = _
  refine Finset.filter_congr ?_
  intro chain _
  simp [matches_chain]

/-! ## AST (`synthesis.rs` view)

Shapes reconstructed from their uses in `synthesis.rs` and `parser.rs`
(the checked-in `ast.rs` belongs to an older crate revision). -/

/-- `ast::Literal` as consumed by `Expr::Literal` evaluation.  `Float`
is omitted (floating point); `String`/`Boolean` fall in the `_ => "0"`
arm of `synthesis.rs` and are represented by `otherLit`. -/
inductive Literal where
  | integer (i : Int)
  | otherLit
deriving DecidableEq, Repr

/-- `ast::Op` — only the four arithmetic operators are looked at by
`evaluate_expr`; everything else maps to `"unknown_op"`. -/
inductive Op where
  | add
  | sub
  | mul
  | div
  | otherOp
deriving DecidableEq, Repr

/-- `ast::Expr` as used by `Synthesizer::evaluate_expr`.  `call` carries
the path segments (`ast::Path`) and the argument list (`ast::ArgValue`:
optional name plus value).  `otherExpr` stands for the remaining
variants (`MemberAccess`, `PropertyCheck`, `UnaryOp`, …), which hit the
`_ => Ok(vec![])` arm. -/
inductive Expr where
  | call (path : List String) (args : List (Option String × Expr))
  | identifier (id : String)
  | literal (lit : Literal)
  | binaryOp (left : Expr) (op : Op) (right : Expr)
  | otherExpr
deriving Repr

/-- `ast::FlowStmt` as matched in `Synthesizer::synthesize` (the match
there is exhaustive with exactly these two arms). -/
inductive FlowStmt where
  | Assignment (target : String) (expr : Expr)
  | Return (expr : Expr)
deriving Repr

/-! ## Execution graph (`ir.rs`) -/

/-- `ir.rs::OperatorOp`. -/
inductive OperatorOp where
  | divide
  | multiply
  | add
  | subtract
  | delay
  | diff
  | rollingMean
  | rollingStd
  | zScore
  | filterOp
  | updateWhen
  | functionCall (name : String)
deriving DecidableEq, Repr

/-- `ir.rs::ExecutionNode`. -/
inductive ExecutionNode where
  | source (name type_name : String)
  | constant (value type_name : String)
  | operation (op : OperatorOp) (args : List Nat)
deriving DecidableEq, Repr

/-- `ir.rs::ExecutionGraph` — append-only node vector; a node's id is
its index. -/
structure ExecutionGraph where
  nodes : List ExecutionNode
deriving DecidableEq, Repr

def ExecutionGraph.new : ExecutionGraph := ⟨[]⟩

/-- `ExecutionGraph::add_node` — push and return the new node's id
(`nodes.len() - 1` after the push, i.e. the old length). -/
def ExecutionGraph.add_node (g : ExecutionGraph) (node : ExecutionNode) : ExecutionGraph × Nat :=
  (⟨g.nodes ++ [node]⟩, g.nodes.length)

/-! ## Symbol table (`symbols.rs` as consumed by `synthesis.rs`) -/

/-- `ast::TypedArg` — a declared parameter: name plus constraint
(reconstructed from `check_args_match`, which reads `req.name` and
`req.constraint`). -/
structure TypedArg where
  name : String
  constraint : Constraint
deriving Repr, DecidableEq

/-- `TypeInfo` as read by `synthesis.rs` (`parent_constraint`,
`properties`) together with the `components` list of
`symbols.rs::TypeInfo`.  The unused `structure` tag is omitted. -/
structure TypeInfo where
  name : String
  parent_constraint : Option Constraint
  properties : List String
  components : Option (List String)
deriving Repr, DecidableEq

/-- `BehaviorInfo` as read by `synthesis.rs`: typed argument list and a
return `Constraint`. -/
structure BehaviorInfo where
  name : String
  args : List TypedArg
  return_type : Constraint
deriving Repr, DecidableEq

/-- `FuncInfo` as read by `synthesis.rs`. -/
structure FuncInfo where
  name : String
  params : List TypedArg
  return_type : Constraint
deriving Repr, DecidableEq

/-- `FlowInfo`. -/
structure FlowInfo where
  name : String
  body : List FlowStmt
deriving Repr

/-- Association-list lookup, modelling `HashMap::get`. -/
def alLookup {α : Type} : List (String × α) → String → Option α
  | [], _ => Option.none
  | (k, v) :: rest, key => if k = key then some v else alLookup rest key

/-- Association-list insert, modelling `HashMap::insert`
(overwrite-on-collision). -/
def alInsert {α : Type} (m : List (String × α)) (key : String) (v : α) : List (String × α) :=
  if m.any (fun p => p.1 = key) then
    m.map (fun p => if p.1 = key then (key, v) else p)
  else
    m ++ [(key, v)]

/-- Association-list removal of a key, returning the value,
modelling `HashMap::remove`. -/
def alRemove {α : Type} : List (String × α) → String → Option (α × List (String × α))
  | [], _ => Option.none
  | (k, v) :: rest, key =>
      if k = key then some (v, rest)
      else (alRemove rest key).map (fun p => (p.1, (k, v) :: p.2))

/-- `symbols.rs::SymbolTable`, restricted to the four maps the
synthesizer reads.  `HashMap`s become association lists (see the header
comment). -/
structure SymbolTable where
  types : List (String × TypeInfo)
  behaviors : List (String × BehaviorInfo)
  functions : List (String × FuncInfo)
  flows : List (String × FlowInfo)
deriving Repr

/-! ## `Synthesizer::collect_variants` -/

mutual

/-- `synthesis.rs::collect_variants` — atoms that are not declared
types, collected through `Union` and `Addition` nodes (and bare atoms);
`Subtraction` and `None` contribute nothing. -/
def collect_variants (st : SymbolTable) : Constraint → List String
  | .atom name =>
      match alLookup st.types name with
      | some _ => []
      | Option.none => [name]
  | .union cs => collectVariantsList st cs
  | .addition cs => collectVariantsList st cs
  | .subtraction _ _ => []
  | .none => []

/-- List traversal of `collect_variants` (the `vars.extend(..)` loops). -/
def collectVariantsList (st : SymbolTable) : ConstraintList → List String
  | .nil => []
  | .cons c rest => collect_variants st c ++ collectVariantsList st rest

end

/-! ## `Synthesizer::fully_expand_chain`

The Rust function runs a work-list loop: pop a type name; if unvisited,
append its (not yet present) property atoms and parent-constraint atoms
to the chain and push the newly seen type names.  The loop's hash-set
iteration order only affects the order in which atoms are appended, and
the final `sort_by` makes the result order-independent, so the embedding
enumerates parent-chain atoms in a fixed (sorted) order.  The total
number of loop iterations is bounded by the initial stack plus one
contribution per declared type, which `feFuel` over-approximates, so the
fuel never runs out on the source's inputs. -/

/-- All atoms occurring in some chain of a constraint set. -/
def setAtoms (s : ConstraintSet) : Finset Atom :=
  s.biUnion List.toFinset

/-- Total atom count of the parent constraints and property lists in the
table — an upper bound on work-list pushes past the initial stack. -/
def feBudget (st : SymbolTable) : Nat :=
  st.types.foldl
    (fun acc p =>
      acc + p.2.properties.length +
        (match p.2.parent_constraint with
         | some c => (setAtoms (expand c)).card
         | Option.none => 0))
    0

/-- Work-list loop of `fully_expand_chain`.  State: remaining fuel,
stack of type names (head = top), visited set, accumulated chain. -/
def feGo (st : SymbolTable) : Nat → List String → List String → List Atom → List Atom
  | 0, _, _, full => full
  | _ + 1, [], _, full => full
  | fuel + 1, ty_name :: stack, visited, full =>
      if ty_name ∈ visited then feGo st fuel stack visited full
      else
        let visited' := ty_name :: visited
        match alLookup st.types ty_name with
        | Option.none => feGo st fuel stack visited' full
        | some ty_info =>
            let fs1 :=
              ty_info.properties.foldl
                (fun (p : List Atom × List String) prop =>
                  if Atom.ty prop ∈ p.1 then p else (p.1 ++ [Atom.ty prop], prop :: p.2))
                (full, stack)
            let fs2 :=
              match ty_info.parent_constraint with
              | Option.none => fs1
              | some parent_c =>
                  (sortAtoms (setAtoms (expand parent_c))).foldl
                    (fun (p : List Atom × List String) a =>
                      if a ∈ p.1 then p
                      else
                        (p.1 ++ [a],
                         match a with
                         | .ty n => n :: p.2
                         | .var _ => p.2))
                    fs1
            feGo st fuel fs2.2 visited' fs2.1

/-- `synthesis.rs::fully_expand_chain` — transitive closure of granted
property atoms through the parent-constraint graph, sorted
canonically. -/
def fully_expand_chain (st : SymbolTable) (chain : List Atom) : List Atom :=
  let stack := chain.foldl
    (fun acc a => match a with | .ty n => n :: acc | .var _ => acc) []
  sortChain (feGo st (chain.length + feBudget st + 1) stack [] chain)

/-- Decidable equality for `Except` values (used to evaluate concrete
runs of the synthesizer). -/
instance {e a : Type} [DecidableEq e] [DecidableEq a] : DecidableEq (Except e a) := fun x y =>
  match x, y with
  | .ok u, .ok v => if h : u = v then isTrue (by simp [h]) else isFalse (by simp [h])
  | .error u, .error v => if h : u = v then isTrue (by simp [h]) else isFalse (by simp [h])
  | .ok _, .error _ => isFalse (by simp)
  | .error _, .ok _ => isFalse (by simp)

/-! ## Synthesis state (`synthesis.rs`) -/

/-- `synthesis.rs::SynthesisError`. -/
inductive SynthesisError where
  | FlowNotFound (name : String)
  | VariableNotFound (name : String)
  | TypeMismatch (expected found : String)
  | ConstraintFailed (msg : String)
  | AmbiguousImpl (name : String)
  | NoImplFound (name : String)
  | SynthesisError (msg : String)
deriving DecidableEq, Repr

/-- `synthesis.rs::VariableState`. -/
structure VariableState where
  name : String
  constraint_set : ConstraintSet
  node_id : Nat
deriving DecidableEq

/-- `synthesis.rs::Context` — per-branch synthesis state.  The Rust
field `variables` is spelled `vars` here (`variables` is reserved in
Lean). -/
structure Context where
  vars : List (String × VariableState)
  graph : ExecutionGraph
deriving DecidableEq

def Context.new : Context := ⟨[], ExecutionGraph.new⟩

/-- `Context::add_node`. -/
def Context.add_node (ctx : Context) (node : ExecutionNode) : Context × Nat :=
  let gn := ctx.graph.add_node node
  ({ ctx with graph := gn.1 }, gn.2)

/-- `synthesis.rs::ArgResult` — an evaluated call argument. -/
structure ArgResult where
  node_id : Nat
  constraint_set : ConstraintSet
  name : Option String
deriving DecidableEq

/-- One evaluation branch: `(Context, ConstraintSet, usize)` as returned
by `evaluate_expr`. -/
abbrev EvalResult := Context × ConstraintSet × Nat

/-! ## `Synthesizer::check_args_match` -/

/-- The per-pair subsumption check at the end of `check_args_match`:
every chain of the provided `ConstraintSet` must satisfy the required
constraint.  (Vacuously true for the empty set.) -/
def argSatisfies (prov : ArgResult) (req : TypedArg) : Bool :=
  decide (∀ chain ∈ prov.constraint_set, matches_chain chain req.constraint = true)

/-- The binding loop of `check_args_match`: bind each required parameter
to the named argument of the same name if present, otherwise to the next
positional; fail on a missing argument.  Returns the ordered arguments
plus the unconsumed named and positional arguments. -/
def orderProvided : List TypedArg → List (String × ArgResult) → List ArgResult →
    Option (List ArgResult × List (String × ArgResult) × List ArgResult)
  | [], name_map, positionals => some ([], name_map, positionals)
  | req :: rest, name_map, positionals =>
      match alRemove name_map req.name with
      | some (arg, name_map') =>
          (orderProvided rest name_map' positionals).map
            (fun r => (arg :: r.1, r.2))
      | Option.none =>
          match positionals with
          | [] => Option.none
          | arg :: positionals' =>
              (orderProvided rest name_map positionals').map
                (fun r => (arg :: r.1, r.2))

/-- `synthesis.rs::check_args_match`. -/
def check_args_match (required : List TypedArg) (provided : List ArgResult) : Bool :=
  if required.length ≠ provided.length then false
  else
    let name_map := provided.foldl
      (fun m p => match p.name with
        | some n => alInsert m n p
        | Option.none => m) []
    let positionals := provided.filter (fun p => p.name.isNone)
    match orderProvided required name_map positionals with
    | Option.none => false
    | some (ordered, name_map_left, positionals_left) =>
        positionals_left.isEmpty && name_map_left.isEmpty &&
          (required.zip ordered).all (fun p => argSatisfies p.2 p.1)

/-! ## Pure pieces of the dispatcher (`evaluate_expr`, `Expr::Call`) -/

/-- Candidate loop “A) Find Matching Functions” of the behavior branch:
scan the function table; a function whose parameters subsume the
arguments and whose fully-expanded return chains all satisfy the
behavior's return constraint yields a `FunctionCall` node.  The context
accumulates one node per emitted candidate (as in the source, where the
same `ctx` is mutated across loop iterations and cloned into each
result). -/
def behaviorFnLoop (st : SymbolTable) (beh_rt : Constraint) (arg_results : List ArgResult)
    (arg_ids : List Nat) : Context → List (String × FuncInfo) → Context × List EvalResult
  | ctx, [] => (ctx, [])
  | ctx, (fn_name, fn_info) :: rest =>
      if check_args_match fn_info.params arg_results then
        let full_fn_constraints : ConstraintSet :=
          (expand fn_info.return_type).image (fully_expand_chain st)
        let compatible :=
          ¬ full_fn_constraints = ∅ ∧
            ∀ f_chain ∈ full_fn_constraints, matches_chain f_chain beh_rt = true
        if compatible then
          let cn := ctx.add_node (.operation (.functionCall fn_name) arg_ids)
          let tail := behaviorFnLoop st beh_rt arg_results arg_ids cn.1 rest
          (tail.1, (cn.1, full_fn_constraints, cn.2) :: tail.2)
        else behaviorFnLoop st beh_rt arg_results arg_ids ctx rest
      else behaviorFnLoop st beh_rt arg_results arg_ids ctx rest

/-- Candidate loop “B) Extract Variants” of the behavior branch: each
variant yields a `Constant` node whose constraint set is the behavior
return chains containing the variant atom (or the bare variant chain
when none do). -/
def variantLoop (beh_rt : Constraint) : Context → List String → Context × List EvalResult
  | ctx, [] => (ctx, [])
  | ctx, variant :: rest =>
      let cn := ctx.add_node (.constant variant "Constant")
      let base := (expand beh_rt).filter (fun chain => Atom.ty variant ∈ chain)
      let s := if base = ∅ then ({[Atom.ty variant]} : ConstraintSet) else base
      let tail := variantLoop beh_rt cn.1 rest
      (tail.1, (cn.1, s, cn.2) :: tail.2)

/-- The flow-reference loop of the call dispatcher: each synthesized
flow context that bound `result` contributes a `Source` node carrying
the flow result's constraint set. -/
def flowImport (func_name : String) : Context → List Context → Context × List EvalResult
  | ctx, [] => (ctx, [])
  | ctx, flow_ctx :: rest =>
      match alLookup flow_ctx.vars "result" with
      | some res_var =>
          let cn := ctx.add_node
            (.source ("FlowResult(" ++ func_name ++ ":" ++ toString res_var.node_id ++ ")")
              "FlowReference")
          let tail := flowImport func_name cn.1 rest
          (tail.1, (cn.1, res_var.constraint_set, cn.2) :: tail.2)
      | Option.none => flowImport func_name ctx rest

/-- Behavior name for a binary operator (`Expr::BinaryOp` is sugar for a
call). -/
def binopName : Op → String
  | .div => "divide"
  | .mul => "multiply"
  | .add => "add"
  | .sub => "subtract"
  | .otherOp => "unknown_op"

/-! ## The synthesizer (`synthesize` / `evaluate_expr`)

All functions of this mutual block consume one unit of fuel per call;
the source functions recurse without any bound and can diverge on
recursive flows. -/

mutual

/-- `Synthesizer::synthesize` — look up the flow and run its body over
the live context list, starting from a single fresh context. -/
def synthesize (st : SymbolTable) (fuel : Nat) (flow_name : String) :
    Except SynthesisError (List Context) :=
  match fuel with
  | 0 => .error (.SynthesisError "recursion limit exceeded")
  | f + 1 =>
      match alLookup st.flows flow_name with
      | Option.none => .error (.FlowNotFound flow_name)
      | some flow => synthStmts st f flow.body [Context.new]
termination_by structural fuel

/-- Outer statement loop of `synthesize`. -/
def synthStmts (st : SymbolTable) (fuel : Nat) (stmts : List FlowStmt)
    (contexts : List Context) : Except SynthesisError (List Context) :=
  match fuel with
  | 0 => .error (.SynthesisError "recursion limit exceeded")
  | f + 1 =>
      match stmts with
      | [] => pure contexts
      | stmt :: rest => do
          let next ← synthStmt st f stmt contexts
          synthStmts st f rest next
termination_by structural fuel

/-- Inner context loop of `synthesize`: apply one statement to every
live context.  `Assignment` binds the target in every resulting branch;
`Return` keeps the context as-is (the `// TODO: Handle return` arm of
the source). -/
def synthStmt (st : SymbolTable) (fuel : Nat) (stmt : FlowStmt) (contexts : List Context) :
    Except SynthesisError (List Context) :=
  match fuel with
  | 0 => .error (.SynthesisError "recursion limit exceeded")
  | f + 1 =>
      match contexts with
      | [] => pure []
      | context :: rest =>
          match stmt with
          | .Assignment target expr => do
              let results ← evaluate_expr st f expr context
              let rest' ← synthStmt st f stmt rest
              pure (results.map
                (fun r =>
                  { r.1 with vars :=
                      alInsert r.1.vars target ⟨target, r.2.1, r.2.2⟩ }) ++ rest')
          | .Return _ => do
              let rest' ← synthStmt st f stmt rest
              pure (context :: rest')
termination_by structural fuel

/-- `Synthesizer::evaluate_expr`. -/
def evaluate_expr (st : SymbolTable) (fuel : Nat) (expr : Expr) (context : Context) :
    Except SynthesisError (List EvalResult) :=
  match fuel with
  | 0 => .error (.SynthesisError "recursion limit exceeded")
  | f + 1 =>
      match expr with
      | .call path args =>
          match path.getLast? with
          | Option.none =>
              -- `path.segments.last().unwrap()` panics on an empty path.
              .error (.SynthesisError "empty call path")
          | some func_name => do
              let states ← evalArgs st f args [(context, [])]
              let results ← dispatchStates st f func_name args.isEmpty states
              if results.isEmpty then .error (.NoImplFound func_name)
              else pure results
      | .identifier ident =>
          match alLookup context.vars ident with
          | some v => pure [(context, v.constraint_set, v.node_id)]
          | Option.none =>
              match alLookup st.types ident with
              | some ty_info =>
                  -- Universe source: the chain is the type's own atom plus its
                  -- *directly declared* properties (`// TODO: Recurse parent`).
                  let cn := context.add_node (.source ("Universe(" ++ ident ++ ")") ident)
                  let chain := Atom.ty ident :: ty_info.properties.map Atom.ty
                  pure [(cn.1, ({chain} : ConstraintSet), cn.2)]
              | Option.none =>
                  match alLookup st.flows ident with
                  | some _ => do
                      let flow_contexts ← synthesize st f ident
                      match flow_contexts.head? with
                      | some final_ctx =>
                          match alLookup final_ctx.vars "result" with
                          | some res_var =>
                              let cn := context.add_node
                                (.source ("FlowResult(" ++ ident ++ ")") "FlowRefernce")
                              pure [(cn.1, res_var.constraint_set, cn.2)]
                          | Option.none =>
                              .error (.ConstraintFailed
                                ("Flow " ++ ident ++ " did not return a result"))
                      | Option.none =>
                          .error (.SynthesisError
                            ("Flow " ++ ident ++ " failed to synthesize"))
                  | Option.none => .error (.VariableNotFound ident)
      | .literal lit =>
          let val_str := match lit with
            | .integer i => toString i
            | .otherLit => "0"
          let cn := context.add_node (.constant val_str "Constant")
          pure [(cn.1, ({[Atom.ty "Constant"]} : ConstraintSet), cn.2)]
      | .binaryOp left op right =>
          evaluate_expr st f (.call [binopName op] [(Option.none, left), (Option.none, right)])
            context
      | .otherExpr => pure []
termination_by structural fuel

/-- Argument-threading loop of the call case: fold each argument over
the current `(context, previous-arguments)` states (Cartesian product
across argument branches). -/
def evalArgs (st : SymbolTable) (fuel : Nat) (args : List (Option String × Expr))
    (states : List (Context × List ArgResult)) :
    Except SynthesisError (List (Context × List ArgResult)) :=
  match fuel with
  | 0 => .error (.SynthesisError "recursion limit exceeded")
  | f + 1 =>
      match args with
      | [] => pure states
      | arg :: rest => do
          let next ← evalArgStates st f arg.1 arg.2 states
          evalArgs st f rest next
termination_by structural fuel

/-- Inner loop of `evalArgs` over the current states. -/
def evalArgStates (st : SymbolTable) (fuel : Nat) (arg_name : Option String) (arg_value : Expr)
    (states : List (Context × List ArgResult)) :
    Except SynthesisError (List (Context × List ArgResult)) :=
  match fuel with
  | 0 => .error (.SynthesisError "recursion limit exceeded")
  | f + 1 =>
      match states with
      | [] => pure []
      | (ctx, prev_args) :: rest => do
          let res ← evaluate_expr st f arg_value ctx
          let rest' ← evalArgStates st f arg_name arg_value rest
          pure (res.map (fun r => (r.1, prev_args ++ [⟨r.2.2, r.2.1, arg_name⟩])) ++ rest')
termination_by structural fuel

/-- The `for (mut ctx, arg_results) in current_states` loop: collect the
candidates of every state. -/
def dispatchStates (st : SymbolTable) (fuel : Nat) (func_name : String) (argsEmpty : Bool)
    (states : List (Context × List ArgResult)) : Except SynthesisError (List EvalResult) :=
  match fuel with
  | 0 => .error (.SynthesisError "recursion limit exceeded")
  | f + 1 =>
      match states with
      | [] => pure []
      | (ctx, arg_results) :: rest => do
          let here ← dispatchOneState st f func_name argsEmpty ctx arg_results
          let rest' ← dispatchStates st f func_name argsEmpty rest
          pure (here ++ rest')
termination_by structural fuel

/-- Candidate collection for one `(context, arguments)` state.  When the
name is a behavior whose declared argument constraints match, `found` is
set and the function/flow fallbacks are skipped — even if the behavior
expansion produced zero candidates. -/
def dispatchOneState (st : SymbolTable) (fuel : Nat) (func_name : String) (argsEmpty : Bool)
    (ctx : Context) (arg_results : List ArgResult) : Except SynthesisError (List EvalResult) :=
  match fuel with
  | 0 => .error (.SynthesisError "recursion limit exceeded")
  | f + 1 =>
      match alLookup st.behaviors func_name with
      | some beh_info =>
          if check_args_match beh_info.args arg_results then
            let arg_ids := arg_results.map (fun a => a.node_id)
            let fnPart := behaviorFnLoop st beh_info.return_type arg_results arg_ids ctx
              st.functions
            let varPart := variantLoop beh_info.return_type fnPart.1
              (collect_variants st beh_info.return_type)
            pure (fnPart.2 ++ varPart.2)
          else dispatchFallback st f func_name argsEmpty ctx arg_results
      | Option.none => dispatchFallback st f func_name argsEmpty ctx arg_results
termination_by structural fuel

/-- Steps 2 and 3 of the dispatcher: exact function match, then flow
reference (reached only when `found` is still false). -/
def dispatchFallback (st : SymbolTable) (fuel : Nat) (func_name : String) (argsEmpty : Bool)
    (ctx : Context) (arg_results : List ArgResult) : Except SynthesisError (List EvalResult) :=
  match fuel with
  | 0 => .error (.SynthesisError "recursion limit exceeded")
  | f + 1 =>
      match alLookup st.functions func_name with
      | some func_info =>
          if check_args_match func_info.params arg_results then
            let arg_ids := arg_results.map (fun a => a.node_id)
            let cn := ctx.add_node (.operation (.functionCall func_info.name) arg_ids)
            pure [(cn.1, expand func_info.return_type, cn.2)]
          else dispatchFlow st f func_name argsEmpty ctx
      | Option.none => dispatchFlow st f func_name argsEmpty ctx
termination_by structural fuel

/-- Step 3 of the dispatcher: zero-arity flow reference. -/
def dispatchFlow (st : SymbolTable) (fuel : Nat) (func_name : String) (argsEmpty : Bool)
    (ctx : Context) : Except SynthesisError (List EvalResult) :=
  match fuel with
  | 0 => .error (.SynthesisError "recursion limit exceeded")
  | f + 1 =>
      match alLookup st.flows func_name with
      | some _ =>
          if argsEmpty then do
            let flow_contexts ← synthesize st f func_name
            pure (flowImport func_name ctx flow_contexts).2
          else pure []
      | Option.none => pure []
termination_by structural fuel

end

/-! ## Symbol-table population (`semantics.rs`)

`SemanticAnalyzer::register_declaration` checks name uniqueness for
types and behaviors only; implementations are pushed unconditionally and
functions and flows are inserted with `HashMap::insert`
(overwrite-on-collision).  The payload records carry the fields the
registrar copies; the statement body type of the older `ast.rs` is
immaterial to registration and is represented by the synthesis-view
`FlowStmt`. -/

namespace Semantics

/-- `semantics.rs::SemanticError`. -/
inductive SemanticError where
  | DuplicateType (name : String)
  | DuplicateBehavior (name : String)
  | UnknownType (name : String)
  | ImportError (msg : String)
deriving DecidableEq, Repr

/-- `symbols.rs::ParamInfo`. -/
structure ParamInfo where
  name : String
  ty : String
deriving DecidableEq, Repr

/-- `symbols.rs::TypeInfo` (semantic-analysis view). -/
structure TypeInfo where
  name : String
  parent : String
  properties : List String
  components : Option (List String)
  structure_tag : Option String
deriving DecidableEq, Repr

/-- `symbols.rs::BehaviorInfo` (semantic-analysis view). -/
structure BehaviorInfo where
  name : String
  args : List String
  return_type : Option String
deriving DecidableEq, Repr

/-- `symbols.rs::ImplInfo` (fields read by `register_declaration`;
constraint/ensure/body payloads are copied opaquely and omitted
here). -/
structure ImplInfo where
  name : String
  behavior : String
  args : List String
deriving DecidableEq, Repr

/-- `symbols.rs::FuncInfo` (semantic-analysis view). -/
structure FuncInfo where
  name : String
  params : List ParamInfo
  return_type : String
deriving DecidableEq, Repr

/-- `symbols.rs::FlowInfo`. -/
structure FlowInfo where
  name : String
  body : List FlowStmt
deriving Repr

/-- The declarations `register_declaration` dispatches on.  Each carries
the record the registrar would build from the AST declaration (the
source copies the declaration's fields one-to-one). -/
inductive Declaration where
  | Type (d : TypeInfo)
  | Behavior (d : BehaviorInfo)
  | Impl (d : ImplInfo)
  | Function (d : FuncInfo)
  | Flow (d : FlowInfo)
  | Import (path : String)

/-- `symbols.rs::SymbolTable` as populated by the analyzer. -/
structure SymbolTable where
  types : List (String × TypeInfo)
  behaviors : List (String × BehaviorInfo)
  implementations : List ImplInfo
  functions : List (String × FuncInfo)
  flows : List (String × FlowInfo)

/-- Membership test, modelling `HashMap::contains_key`. -/
def containsKey {α : Type} (m : List (String × α)) (key : String) : Bool :=
  m.any (fun p => p.1 = key)

/-- `semantics.rs::register_declaration`. -/
def register_declaration (st : SymbolTable) :
    Declaration → Except SemanticError SymbolTable
  | .Type d =>
      if containsKey st.types d.name then .error (.DuplicateType d.name)
      else pure { st with types := alInsert st.types d.name d }
  | .Behavior d =>
      if containsKey st.behaviors d.name then .error (.DuplicateBehavior d.name)
      else pure { st with behaviors := alInsert st.behaviors d.name d }
  | .Impl d => pure { st with implementations := st.implementations ++ [d] }
  | .Function d => pure { st with functions := alInsert st.functions d.name d }
  | .Flow d => pure { st with flows := alInsert st.flows d.name d }
  | .Import _ => pure st

end Semantics

/-! ## Shared lemmas -/

/-- Every chain of a constraint's expansion matches that constraint
(witnessed by itself). -/
theorem matches_chain_self {chain : List Atom} {C : Constraint} (h : chain ∈ expand C) :
    matches_chain chain C = true := by
  simp only [matches_chain, decide_eq_true_eq]
  exact ⟨chain, h, fun a ha => ha⟩

/-- Expansion of a two-element union. -/
theorem expand_union_pair (A B : Constraint) :
    expand (.union (cl [A, B])) = expand A ∪ expand B := by
  show expandUnion _ = _
  simp only [cl, expandUnion]
  rw [Finset.union_empty]

/-- A successful association-list lookup comes from a list entry. -/
theorem alLookup_mem {α : Type} {m : List (String × α)} {key : String} {v : α}
    (h : alLookup m key = some v) : ∃ k, (k, v) ∈ m := by
  induction m with
  | nil => simp [alLookup] at h
  | cons p rest ih =>
      by_cases hk : p.1 = key
      · simp [alLookup, hk] at h
        exact ⟨p.1, by simp [← h]⟩
      · simp [alLookup, hk] at h
        rcases ih h with ⟨k, hk'⟩
        exact ⟨k, List.mem_cons_of_mem _ hk'⟩

/-- Inserting into an association list preserves a per-entry property. -/
theorem alInsert_forall {α : Type} {P : String × α → Prop} {m : List (String × α)}
    {key : String} {v : α} (hm : ∀ p ∈ m, P p) (hv : P (key, v)) :
    ∀ p ∈ alInsert m key v, P p := by
  intro p hp
  unfold alInsert at hp
  by_cases hc : m.any (fun q => q.1 = key)
  · rw [if_pos hc] at hp
    rcases List.mem_map.mp hp with ⟨q, hq, hpq⟩
    by_cases hqk : q.1 = key
    · rw [if_pos hqk] at hpq
      exact hpq ▸ hv
    · rw [if_neg hqk] at hpq
      exact hpq ▸ hm q hq
  · rw [if_neg hc] at hp
    rcases List.mem_append.mp hp with hq | hq
    · exact hm p hq
    · rw [List.mem_singleton.mp hq]
      exact hv

/-- Inversion for a successful `Except` bind. -/
theorem except_bind_ok {ε α β : Type} {e : Except ε α} {k : α → Except ε β} {v : β}
    (h : (e >>= k) = .ok v) : ∃ w, e = .ok w ∧ k w = .ok v := by
  cases e with
  | ok w => exact ⟨w, rfl, h⟩
  | error msg => simp [Bind.bind, Except.bind] at h

/-- Inversion for a successful `Except` pure. -/
theorem except_pure_ok {ε α : Type} {x y : α} (h : (pure x : Except ε α) = .ok y) :
    x = y := by
  simpa [pure, Except.pure] using h

/-! ## Claim C1

Spec: “If `name` is not a behavior, or no behavior candidates matched,
look up a function of that name and, if its parameter constraints
subsume the arguments, emit a single `FunctionCall` node.”  The source
sets `found = true` as soon as the name is a behavior whose declared
argument constraints match — even when the expansion then emits zero
candidates — so the concrete-function fallback is not reached and the
call fails with `NoImplFound`. -/

/-- Counterexample table for C1: behavior `f() -> V` (`V` a declared
type, so no variants; no function's return satisfies `V`, so no
function candidates) alongside a concrete function `f() -> R` whose
parameters trivially subsume the (empty) argument list. -/
def c1Table : SymbolTable :=
  { types := [("V", ⟨"V", Option.none, [], Option.none⟩), ("R", ⟨"R", Option.none, [], Option.none⟩)],
    behaviors := [("f", ⟨"f", [], .atom "V"⟩)],
    functions := [("f", ⟨"f", [], .atom "R"⟩)],
    flows := [] }

/-- C1: the claim fails on the code.  At `c1Table` the call `f()` hits a
behavior with matching arity and constraints whose expansion emits zero
candidates, and a concrete function `f` with matching parameter
constraints exists — yet evaluation returns `NoImplFound` instead of
emitting a `FunctionCall` node. -/
theorem c1_counterexample :
    alLookup c1Table.behaviors "f" = some ⟨"f", [], .atom "V"⟩ ∧
    alLookup c1Table.functions "f" = some ⟨"f", [], .atom "R"⟩ ∧
    check_args_match ([] : List TypedArg) ([] : List ArgResult) = true ∧
    evaluate_expr c1Table 20 (.call ["f"] []) Context.new =
      .error (.NoImplFound "f") := by
  refine ⟨rfl, rfl, rfl, by decide⟩

/-- C1 (amended): when the callee is a declared behavior whose argument
constraints match, the dispatcher emits exactly the behavior-expansion
candidates (matching functions, then variants); the concrete-function
fallback is never consulted for that state, so an empty expansion
contributes no candidates at all. -/
theorem c1_no_fallback_on_matching_behavior
    (st : SymbolTable) (fuel : Nat) (name : String) (argsEmpty : Bool) (ctx : Context)
    (arg_results : List ArgResult) (beh : BehaviorInfo)
    (hb : alLookup st.behaviors name = some beh)
    (hm : check_args_match beh.args arg_results = true) :
    dispatchOneState st (fuel + 1) name argsEmpty ctx arg_results =
      .ok ((behaviorFnLoop st beh.return_type arg_results
              (arg_results.map (fun a => a.node_id)) ctx st.functions).2 ++
           (variantLoop beh.return_type
              (behaviorFnLoop st beh.return_type arg_results
                (arg_results.map (fun a => a.node_id)) ctx st.functions).1
              (collect_variants st beh.return_type)).2) := by
  simp only [dispatchOneState, hb, hm, if_true]
  rfl

/-- C1 witness: at `c1Table` the matching behavior expands to zero
candidates and the state yields none (despite the callable function
`f`). -/
theorem c1_witness :
    dispatchOneState c1Table 5 "f" true Context.new [] = .ok [] := by
  rw [c1_no_fallback_on_matching_behavior c1Table 4 "f" true Context.new []
    ⟨"f", [], .atom "V"⟩ rfl rfl]
  decide

/-! ## Claim C2 -/

/-- A symbol table that already holds a function named `f`. -/
def c2Table : Semantics.SymbolTable :=
  ⟨[], [], [], [("f", ⟨"f", [], "R1"⟩)], []⟩

/-- C2: the claim fails on the code.  Registering a second function
named `f` does not fail with a duplicate-declaration error: it succeeds
and overwrites the first entry (`register_declaration` only checks
duplicates for types and behaviors). -/
theorem c2_counterexample :
    Semantics.containsKey c2Table.functions "f" = true ∧
    (Semantics.register_declaration c2Table (.Function ⟨"f", [⟨"x", "T"⟩], "R2"⟩)).toOption.map
        (fun t => alLookup t.functions "f") =
      some (some ⟨"f", [⟨"x", "T"⟩], "R2"⟩) := by
  exact ⟨rfl, rfl⟩

/-- C2 (amended): duplicate types and behaviors are hard errors, but
duplicate functions and flows are not checked — they are registered
successfully, overwriting the earlier entry. -/
theorem c2_duplicates_by_kind (st : Semantics.SymbolTable)
    (td : Semantics.TypeInfo) (bd : Semantics.BehaviorInfo)
    (fd : Semantics.FuncInfo) (fl : Semantics.FlowInfo)
    (ht : Semantics.containsKey st.types td.name = true)
    (hb : Semantics.containsKey st.behaviors bd.name = true) :
    Semantics.register_declaration st (.Type td) = .error (.DuplicateType td.name) ∧
    Semantics.register_declaration st (.Behavior bd) = .error (.DuplicateBehavior bd.name) ∧
    Semantics.register_declaration st (.Function fd) =
      .ok { st with functions := alInsert st.functions fd.name fd } ∧
    Semantics.register_declaration st (.Flow fl) =
      .ok { st with flows := alInsert st.flows fl.name fl } := by
  refine ⟨?_, ?_, rfl, rfl⟩ <;> simp [Semantics.register_declaration, ht, hb]

/-- A symbol table holding a type `T` and a behavior `B`. -/
def c2WitnessTable : Semantics.SymbolTable :=
  ⟨[("T", ⟨"T", "Root", [], Option.none, Option.none⟩)],
   [("B", ⟨"B", [], Option.none⟩)], [], [], []⟩

/-- C2 witness: concrete duplicate registrations of each kind. -/
theorem c2_witness :
    Semantics.register_declaration c2WitnessTable
        (.Type ⟨"T", "Root", [], Option.none, Option.none⟩) =
      .error (.DuplicateType "T") ∧
    Semantics.register_declaration c2WitnessTable (.Behavior ⟨"B", [], Option.none⟩) =
      .error (.DuplicateBehavior "B") ∧
    Semantics.register_declaration c2WitnessTable (.Function ⟨"g", [], "R"⟩) =
      .ok { c2WitnessTable with functions := alInsert c2WitnessTable.functions "g" ⟨"g", [], "R"⟩ } ∧
    Semantics.register_declaration c2WitnessTable (.Flow ⟨"fl", []⟩) =
      .ok { c2WitnessTable with flows := alInsert c2WitnessTable.flows "fl" ⟨"fl", []⟩ } :=
  c2_duplicates_by_kind c2WitnessTable _ _ _ _ rfl rfl

/-! ## Claim C3 -/

/-- C3: evaluating a call returns `NoImplFound` exactly when the
candidates collected over all argument-branch states are empty; a
non-empty candidate list (in particular two or more survivors) is
returned as-is, one entry per branch, with no error. -/
theorem c3_no_impl_iff_empty (st : SymbolTable) (fuel : Nat) (path : List String)
    (args : List (Option String × Expr)) (ctx : Context) (name : String)
    (states : List (Context × List ArgResult)) (results : List EvalResult)
    (hname : path.getLast? = some name)
    (hargs : evalArgs st fuel args [(ctx, [])] = .ok states)
    (hdisp : dispatchStates st fuel name args.isEmpty states = .ok results) :
    (evaluate_expr st (fuel + 1) (.call path args) ctx =
        .error (.NoImplFound name) ↔ results = []) ∧
    (results ≠ [] →
      evaluate_expr st (fuel + 1) (.call path args) ctx = .ok results) := by
  have hev : evaluate_expr st (fuel + 1) (.call path args) ctx =
      if results = [] then .error (.NoImplFound name) else pure results := by
    simp [evaluate_expr, hname, hargs, hdisp, Bind.bind, Except.bind]
  constructor
  · constructor
    · intro h
      cases results with
      | nil => rfl
      | cons r rs => simp [hev, pure, Except.pure] at h
    · intro h
      subst h
      simp [hev]
  · intro h
    rw [hev, if_neg h]
    rfl

/-- Dispatch table for the C3 witness: a lone concrete function `f`. -/
def c3Table : SymbolTable :=
  { types := [], behaviors := [], functions := [("f", ⟨"f", [], .atom "R"⟩)], flows := [] }

/-- The single candidate produced by calling `f()` at `c3Table`. -/
def c3Result : EvalResult :=
  (⟨[], ⟨[.operation (.functionCall "f") []]⟩⟩, ({[Atom.ty "R"]} : ConstraintSet), 0)

/-- C3 witness: at `c3Table`, calling `f()` collects one candidate, so
the call does not fail and returns that candidate. -/
theorem c3_witness :
    (evaluate_expr c3Table 10 (.call ["f"] []) Context.new =
        .error (.NoImplFound "f") ↔ [c3Result] = []) ∧
    ([c3Result] ≠ [] →
      evaluate_expr c3Table 10 (.call ["f"] []) Context.new = .ok [c3Result]) :=
  c3_no_impl_iff_empty c3Table 9 ["f"] [] Context.new "f" [(Context.new, [])] [c3Result]
    rfl (by decide) (by decide)

/-! ## Claim C4 -/

/-- The window behavior of the spec's union-variant scenario. -/
def c4Table : SymbolTable :=
  { types := [],
    behaviors := [("window", ⟨"window", [], .union (cl [.atom "21", .atom "63"])⟩)],
    functions := [],
    flows := [("main", ⟨"main", [.Assignment "result" (.call ["window"] [])]⟩)] }

/-- A behavior whose return constraint is a bare (non-`Union`) atom. -/
def c4AtomTable : SymbolTable :=
  { types := [], behaviors := [("g", ⟨"g", [], .atom "21"⟩)], functions := [], flows := [] }

/-- C4: the claim fails on the code.  The atom `"21"` sits at the root
of the behavior's return constraint — not in a `Union` position — yet
`collect_variants` reports it and the call emits a `Constant "21"`
candidate, contradicting “and only such atoms do”. -/
theorem c4_counterexample :
    collect_variants c4AtomTable (.atom "21") = ["21"] ∧
    evaluate_expr c4AtomTable 10 (.call ["g"] []) Context.new =
      .ok [(⟨[], ⟨[.constant "21" "Constant"]⟩⟩, ({[Atom.ty "21"]} : ConstraintSet), 0)] := by
  refine ⟨rfl, by decide⟩

/-- List form of the variant collection over atom leaves. -/
theorem collectVariantsList_atoms (st : SymbolTable) (ns : List String) :
    collectVariantsList st (cl (ns.map .atom)) =
      ns.filter (fun n => (alLookup st.types n).isNone) := by
  induction ns with
  | nil => rfl
  | cons n rest ih =>
      simp only [List.map, cl, collectVariantsList, collect_variants, ih, List.filter]
      cases h : alLookup st.types n <;> simp [h]

/-- C4 (amended): undeclared atoms are collected as variants from
`Union` **and** `Addition` positions (and from a bare atom return);
each variant contributes exactly one `Constant` candidate.  The spec's
union example behaves as described: `window() -> Union("21","63")`
yields two contexts, one whose `result` is a `Constant "21"` node and
one whose `result` is a `Constant "63"` node. -/
theorem c4_variant_candidates (st : SymbolTable) (ns : List String) (rt : Constraint)
    (ctx : Context) (vs : List String) :
    collect_variants st (.union (cl (ns.map .atom))) =
      ns.filter (fun n => (alLookup st.types n).isNone) ∧
    collect_variants st (.addition (cl (ns.map .atom))) =
      ns.filter (fun n => (alLookup st.types n).isNone) ∧
    (variantLoop rt ctx vs).2.length = vs.length ∧
    synthesize c4Table 20 "main" =
      .ok [⟨[("result", ⟨"result", {[Atom.ty "21"]}, 0⟩)],
            ⟨[.constant "21" "Constant"]⟩⟩,
           ⟨[("result", ⟨"result", {[Atom.ty "63"]}, 1⟩)],
            ⟨[.constant "21" "Constant", .constant "63" "Constant"]⟩⟩] := by
  refine ⟨collectVariantsList_atoms st ns, collectVariantsList_atoms st ns, ?_, by decide⟩
  induction vs generalizing ctx with
  | nil => rfl
  | cons v rest ih => simp [variantLoop, ih]

/-! ## Claim C5 -/

/-- Type `U` declares components `[A, B]`; the flow uses `U` as a
universe. -/
def c5Table : SymbolTable :=
  { types := [("U", ⟨"U", Option.none, [], some ["A", "B"]⟩),
      ("A", ⟨"A", Option.none, [], Option.none⟩), ("B", ⟨"B", Option.none, [], Option.none⟩)],
    behaviors := [], functions := [],
    flows := [("main", ⟨"main", [.Assignment "result" (.identifier "U")]⟩)] }

/-- C5: the claim fails on the code.  `U` declares two components, but
synthesizing `main = U` produces exactly **one** context with a single
`Source "Universe(U)"` node — no `Universe(A)`/`Universe(B)`
branches. -/
theorem c5_counterexample :
    (alLookup c5Table.types "U").map (fun t => t.components) = some (some ["A", "B"]) ∧
    synthesize c5Table 10 "main" =
      .ok [⟨[("result", ⟨"result", {[Atom.ty "U"]}, 0⟩)],
            ⟨[.source "Universe(U)" "U"]⟩⟩] := by
  refine ⟨rfl, by decide⟩

/-- C5 (amended): evaluating an unbound identifier that names a type
produces exactly one branch carrying a `Source "Universe(name)"` node,
irrespective of the type's declared component list (which synthesis
never reads). -/
theorem c5_universe_single_branch (st : SymbolTable) (fuel : Nat) (ctx : Context)
    (ident : String) (ty_info : TypeInfo)
    (hv : alLookup ctx.vars ident = Option.none)
    (ht : alLookup st.types ident = some ty_info) :
    evaluate_expr st (fuel + 1) (.identifier ident) ctx =
      .ok [((ctx.add_node (.source ("Universe(" ++ ident ++ ")") ident)).1,
            ({Atom.ty ident :: ty_info.properties.map Atom.ty} : ConstraintSet),
            (ctx.add_node (.source ("Universe(" ++ ident ++ ")") ident)).2)] := by
  simp only [evaluate_expr, hv, ht]
  rfl

/-- C5 witness: the `U` universe at `c5Table` yields one branch. -/
theorem c5_witness :
    evaluate_expr c5Table 4 (.identifier "U") Context.new =
      .ok [((Context.new.add_node (.source ("Universe(" ++ "U" ++ ")") "U")).1,
            ({Atom.ty "U" :: ([] : List String).map Atom.ty} : ConstraintSet),
            (Context.new.add_node (.source ("Universe(" ++ "U" ++ ")") "U")).2)] :=
  c5_universe_single_branch c5Table 3 Context.new "U" ⟨"U", Option.none, [], some ["A", "B"]⟩
    rfl rfl

/-! ## Claim C6 -/

/-- A flow whose only statement returns an unbound identifier. -/
def c6Table : SymbolTable :=
  { types := [], behaviors := [], functions := [],
    flows := [("main", ⟨"main", [.Return (.identifier "nope")]⟩)] }

/-- C6: the code contradicts the claim (and its own
`// TODO: Handle return` marks the gap).  The `Return` arm keeps every
live context without evaluating the returned expression, so a flow
returning the unbound identifier `nope` synthesizes successfully even
though evaluating that expression fails with `VariableNotFound`. -/
theorem c6_return_not_evaluated :
    synthesize c6Table 10 "main" = .ok [Context.new] ∧
    evaluate_expr c6Table 10 (.identifier "nope") Context.new =
      .error (.VariableNotFound "nope") := by
  exact ⟨by decide, by decide⟩

/-! ## Claim C7 -/

/-- Type `A` inherits from `B` (parent constraint `Atom "B"`); `B`
grants property `P`. -/
def c7Table : SymbolTable :=
  { types := [("A", ⟨"A", some (.atom "B"), [], Option.none⟩),
      ("B", ⟨"B", Option.none, ["P"], Option.none⟩)],
    behaviors := [], functions := [], flows := [] }

/-- C7: the code contradicts the claim (and its own
`// TODO: Recurse parent` marks the gap).  Evaluating the universe `A`
builds the chain from the type's own atom and *directly declared*
properties only — `[Type "A"]` here — whereas the fully expanded chain
(which the claim requires, and which `fully_expand_chain` computes)
also carries the inherited atoms `B` and `P`. -/
theorem c7_universe_chain_not_expanded :
    evaluate_expr c7Table 10 (.identifier "A") Context.new =
      .ok [(⟨[], ⟨[.source "Universe(A)" "A"]⟩⟩, ({[Atom.ty "A"]} : ConstraintSet), 0)] ∧
    fully_expand_chain c7Table [Atom.ty "A"] = [Atom.ty "A", Atom.ty "B", Atom.ty "P"] := by
  exact ⟨by decide, by decide⟩

/-! ## Claim C8 -/

/-- C8: the claim fails on the code.  With `A = Addition("x","y")` and
`B = Atom "x")` the expansions share no chain, yet
`expand(Subtraction(Union(A,B),B))` is empty, not `expand(A)`: the
chain `[x,y]` of `A` *matches* `B` (subset test) and is subtracted
too. -/
theorem c8_counterexample :
    expand (.addition (cl [.atom "x", .atom "y"])) ∩ expand (.atom "x") = (∅ : ConstraintSet) ∧
    expand (.subtraction (.union (cl [.addition (cl [.atom "x", .atom "y"]), .atom "x"]))
        (.atom "x")) ≠
      expand (.addition (cl [.atom "x", .atom "y"])) := by
  exact ⟨by decide, by decide⟩

/-- C8 (amended): the law holds under the stronger side condition that
**no chain of `expand A` matches `B`** (subset test), rather than mere
chain-set disjointness: then subtraction removes exactly the chains of
`expand B` and `expand(Subtraction(Union(A,B),B)) = expand(A)`. -/
theorem c8_subtraction_of_union (A B : Constraint)
    (h : ∀ chain ∈ expand A, matches_chain chain B = false) :
    expand (.subtraction (.union (cl [A, B])) B) = expand A := by
  rw [expand_subtraction, expand_union_pair, Finset.filter_union,
    Finset.filter_true_of_mem h,
    Finset.filter_false_of_mem (fun chain hc => by simp [matches_chain_self hc]),
    Finset.union_empty]

/-- C8 witness: disjoint atoms satisfy the no-chain-matches condition. -/
theorem c8_witness :
    expand (.subtraction (.union (cl [.atom "a", .atom "b"])) (.atom "b")) =
      expand (.atom "a") :=
  c8_subtraction_of_union (.atom "a") (.atom "b") (by decide)

/-! ## Claim C9

Graph well-formedness: every node's argument ids are strictly smaller
than the node's own id (its index), which makes every produced graph
acyclic and its insertion order a valid topological order. -/

/-- The input ids of a node (`Operation` nodes reference arguments;
`Source`/`Constant` have none). -/
def nodeArgs : ExecutionNode → List Nat
  | .operation _ args => args
  | _ => []

/-- Well-formed graph: each node references only strictly smaller
ids. -/
def graphWF (g : ExecutionGraph) : Prop :=
  ∀ (i : Nat) (h : i < g.nodes.length), ∀ a ∈ nodeArgs (g.nodes[i]), a < i

/-- `g'` extends `g` by appended nodes (contexts only ever grow their
graphs). -/
def graphLE (g g' : ExecutionGraph) : Prop := ∃ s, g'.nodes = g.nodes ++ s

/-- Well-formed context: well-formed graph, and every bound variable's
node id is in range. -/
def CtxWF (ctx : Context) : Prop :=
  graphWF ctx.graph ∧ ∀ p ∈ ctx.vars, p.2.node_id < ctx.graph.nodes.length

/-- Well-formedness of one evaluation branch relative to the graph `g0`
it grew from. -/
def ResOK (g0 : ExecutionGraph) (r : EvalResult) : Prop :=
  CtxWF r.1 ∧ graphLE g0 r.1.graph ∧ r.2.2 < r.1.graph.nodes.length

/-- Well-formedness of one argument-threading state relative to `g0`. -/
def StateOK (g0 : ExecutionGraph) (s : Context × List ArgResult) : Prop :=
  CtxWF s.1 ∧ graphLE g0 s.1.graph ∧ ∀ a ∈ s.2, a.node_id < s.1.graph.nodes.length

theorem graphLE_refl (g : ExecutionGraph) : graphLE g g := ⟨[], by simp⟩

theorem graphLE_trans {g1 g2 g3 : ExecutionGraph} (h1 : graphLE g1 g2) (h2 : graphLE g2 g3) :
    graphLE g1 g3 := by
  obtain ⟨s1, hs1⟩ := h1
  obtain ⟨s2, hs2⟩ := h2
  exact ⟨s1 ++ s2, by simp [hs2, hs1]⟩

theorem graphLE_length {g g' : ExecutionGraph} (h : graphLE g g') :
    g.nodes.length ≤ g'.nodes.length := by
  obtain ⟨s, hs⟩ := h
  simp [hs]

/-- Appending a node whose arguments are in range preserves graph
well-formedness. -/
theorem graphWF_append {g : ExecutionGraph} {n : ExecutionNode} (hg : graphWF g)
    (hn : ∀ a ∈ nodeArgs n, a < g.nodes.length) :
    graphWF ⟨g.nodes ++ [n]⟩ := by
  intro i hi a ha
  simp only [List.length_append, List.length_singleton] at hi
  by_cases hlt : i < g.nodes.length
  · rw [List.getElem_append_left hlt] at ha
    exact hg i hlt a ha
  · have hieq : i = g.nodes.length := by omega
    subst hieq
    rw [List.getElem_concat_length] at ha
    exact hn a ha
    rfl

/-- `Context.add_node` preserves context well-formedness, extends the
graph and returns an in-range id, provided the node's arguments are in
range. -/
theorem CtxWF_add_node {ctx : Context} {n : ExecutionNode} (hc : CtxWF ctx)
    (hn : ∀ a ∈ nodeArgs n, a < ctx.graph.nodes.length) :
    CtxWF (ctx.add_node n).1 ∧ graphLE ctx.graph (ctx.add_node n).1.graph ∧
      (ctx.add_node n).2 < (ctx.add_node n).1.graph.nodes.length := by
  refine ⟨⟨graphWF_append hc.1 hn, ?_⟩, ⟨[n], rfl⟩, ?_⟩
  · intro p hp
    have := hc.2 p hp
    simp only [Context.add_node, ExecutionGraph.add_node, List.length_append]
    omega
  · simp [Context.add_node, ExecutionGraph.add_node]

theorem CtxWF_new : CtxWF Context.new := by
  constructor
  · intro i hi
    simp [Context.new, ExecutionGraph.new] at hi
  · intro p hp
    simp [Context.new] at hp

/-- The function-candidate loop of the behavior branch preserves
context well-formedness and produces only well-formed branches. -/
theorem behaviorFnLoop_wf (st : SymbolTable) (rt : Constraint) (ar : List ArgResult)
    (ids : List Nat) (g0 : ExecutionGraph) :
    ∀ (fns : List (String × FuncInfo)) (ctx : Context), CtxWF ctx → graphLE g0 ctx.graph →
      (∀ i ∈ ids, i < ctx.graph.nodes.length) →
      CtxWF (behaviorFnLoop st rt ar ids ctx fns).1 ∧
        graphLE g0 (behaviorFnLoop st rt ar ids ctx fns).1.graph ∧
        (∀ i ∈ ids, i < (behaviorFnLoop st rt ar ids ctx fns).1.graph.nodes.length) ∧
        ∀ r ∈ (behaviorFnLoop st rt ar ids ctx fns).2, ResOK g0 r := by
  intro fns
  induction fns with
  | nil =>
      intro ctx hc hle hids
      exact ⟨hc, hle, hids, by simp [behaviorFnLoop]⟩
  | cons p rest ih =>
      intro ctx hc hle hids
      have hnode : ∀ a ∈ nodeArgs (.operation (.functionCall p.1) ids),
          a < ctx.graph.nodes.length := by
        simpa [nodeArgs] using hids
      obtain ⟨hc', hle', hid'⟩ := CtxWF_add_node hc hnode
      have hids' : ∀ i ∈ ids,
          i < (ctx.add_node (.operation (.functionCall p.1) ids)).1.graph.nodes.length :=
        fun i hi => lt_of_lt_of_le (hids i hi) (graphLE_length hle')
      obtain ⟨hco, hlo, hio, hro⟩ := ih _ hc' (graphLE_trans hle hle') hids'
      simp only [behaviorFnLoop]
      split
      · split
        · refine ⟨hco, hlo, hio, ?_⟩
          intro r hr
          rcases List.mem_cons.mp hr with hr | hr
          · subst hr
            exact ⟨hc', graphLE_trans hle hle', hid'⟩
          · exact hro r hr
        · exact ih ctx hc hle hids
      · exact ih ctx hc hle hids

/-- The variant loop emits `Constant` branches only; it preserves
context well-formedness and produces well-formed branches. -/
theorem variantLoop_wf (rt : Constraint) (g0 : ExecutionGraph) :
    ∀ (vs : List String) (ctx : Context), CtxWF ctx → graphLE g0 ctx.graph →
      CtxWF (variantLoop rt ctx vs).1 ∧ graphLE g0 (variantLoop rt ctx vs).1.graph ∧
        ∀ r ∈ (variantLoop rt ctx vs).2, ResOK g0 r := by
  intro vs
  induction vs with
  | nil =>
      intro ctx hc hle
      exact ⟨hc, hle, by simp [variantLoop]⟩
  | cons v rest ih =>
      intro ctx hc hle
      have hnode : ∀ a ∈ nodeArgs (.constant v "Constant"), a < ctx.graph.nodes.length := by
        simp [nodeArgs]
      obtain ⟨hc', hle', hid'⟩ := CtxWF_add_node hc hnode
      obtain ⟨hco, hlo, hro⟩ := ih _ hc' (graphLE_trans hle hle')
      refine ⟨hco, hlo, ?_⟩
      intro r hr
      simp only [variantLoop] at hr
      rcases List.mem_cons.mp hr with hr | hr
      · subst hr
        exact ⟨hc', graphLE_trans hle hle', hid'⟩
      · exact hro r hr

/-- The flow-import loop emits `Source` branches only; it produces
well-formed branches. -/
theorem flowImport_wf (name : String) (g0 : ExecutionGraph) :
    ∀ (fcs : List Context) (ctx : Context), CtxWF ctx → graphLE g0 ctx.graph →
      ∀ r ∈ (flowImport name ctx fcs).2, ResOK g0 r := by
  intro fcs
  induction fcs with
  | nil =>
      intro ctx _ _ r hr
      simp [flowImport] at hr
  | cons fctx rest ih =>
      intro ctx hc hle r hr
      simp only [flowImport] at hr
      cases hres : alLookup fctx.vars "result" with
      | none =>
          rw [hres] at hr
          exact ih ctx hc hle r hr
      | some res_var =>
          rw [hres] at hr
          have hnode : ∀ a ∈ nodeArgs
              (.source ("FlowResult(" ++ name ++ ":" ++ toString res_var.node_id ++ ")")
                "FlowReference"), a < ctx.graph.nodes.length := by
            simp [nodeArgs]
          obtain ⟨hc', hle', hid'⟩ := CtxWF_add_node hc hnode
          rcases List.mem_cons.mp hr with hr | hr
          · subst hr
            exact ⟨hc', graphLE_trans hle hle', hid'⟩
          · exact ih _ hc' (graphLE_trans hle hle') r hr

/-- The well-formedness invariant of the whole synthesizer, proved for
every fuel value by simultaneous induction over the mutual fueled
functions: synthesized contexts are well formed, evaluation branches
extend their input graph, return in-range node ids, and keep every
node's argument ids strictly below the node's own id. -/
theorem synthesis_wf : ∀ fuel : Nat,
    (∀ st name ctxs, synthesize st fuel name = .ok ctxs → ∀ c ∈ ctxs, CtxWF c) ∧
    (∀ st stmts ctxs out, synthStmts st fuel stmts ctxs = .ok out →
      (∀ c ∈ ctxs, CtxWF c) → ∀ c ∈ out, CtxWF c) ∧
    (∀ st stmt ctxs out, synthStmt st fuel stmt ctxs = .ok out →
      (∀ c ∈ ctxs, CtxWF c) → ∀ c ∈ out, CtxWF c) ∧
    (∀ st e ctx results, evaluate_expr st fuel e ctx = .ok results → CtxWF ctx →
      ∀ r ∈ results, ResOK ctx.graph r) ∧
    (∀ st nm v g0 states out, evalArgStates st fuel nm v states = .ok out →
      (∀ s ∈ states, StateOK g0 s) → ∀ s ∈ out, StateOK g0 s) ∧
    (∀ st args g0 states out, evalArgs st fuel args states = .ok out →
      (∀ s ∈ states, StateOK g0 s) → ∀ s ∈ out, StateOK g0 s) ∧
    (∀ st name aE g0 states out, dispatchStates st fuel name aE states = .ok out →
      (∀ s ∈ states, StateOK g0 s) → ∀ r ∈ out, ResOK g0 r) ∧
    (∀ st name aE g0 ctx args out, dispatchOneState st fuel name aE ctx args = .ok out →
      StateOK g0 (ctx, args) → ∀ r ∈ out, ResOK g0 r) ∧
    (∀ st name aE g0 ctx args out, dispatchFallback st fuel name aE ctx args = .ok out →
      StateOK g0 (ctx, args) → ∀ r ∈ out, ResOK g0 r) ∧
    (∀ st name aE g0 ctx out, dispatchFlow st fuel name aE ctx = .ok out →
      CtxWF ctx → graphLE g0 ctx.graph → ∀ r ∈ out, ResOK g0 r) := by
  intro fuel
  induction fuel with
  | zero =>
      refine ⟨fun st name ctxs h => by simp [synthesize] at h,
        fun st stmts ctxs out h _ => by simp [synthStmts] at h,
        fun st stmt ctxs out h _ => by simp [synthStmt] at h,
        fun st e ctx results h _ => by simp [evaluate_expr] at h,
        fun st nm v g0 states out h _ => by simp [evalArgStates] at h,
        fun st args g0 states out h _ => by simp [evalArgs] at h,
        fun st name aE g0 states out h _ => by simp [dispatchStates] at h,
        fun st name aE g0 ctx args out h _ => by simp [dispatchOneState] at h,
        fun st name aE g0 ctx args out h _ => by simp [dispatchFallback] at h,
        fun st name aE g0 ctx out h _ _ => by simp [dispatchFlow] at h⟩
  | succ f ih =>
      obtain ⟨ihSy, ihSts, ihSt, ihEv, ihAS, ihAr, ihDS, ihDO, ihDF, ihFl⟩ := ih
      refine ⟨?_, ?_, ?_, ?_, ?_, ?_, ?_, ?_, ?_, ?_⟩
      · -- synthesize
        intro st name ctxs h
        cases hf : alLookup st.flows name with
        | none => simp [synthesize, hf] at h
        | some flow =>
            simp only [synthesize, hf] at h
            refine ihSts st flow.body [Context.new] ctxs h ?_
            intro c hc
            rw [List.mem_singleton.mp hc]
            exact CtxWF_new
      · -- synthStmts
        intro st stmts ctxs out h hin
        cases stmts with
        | nil =>
            simp only [synthStmts] at h
            have heq := except_pure_ok h
            subst heq
            exact hin
        | cons stmt rest =>
            simp only [synthStmts] at h
            obtain ⟨mid, h1, h2⟩ := except_bind_ok h
            exact ihSts st rest mid out h2 (ihSt st stmt ctxs mid h1 hin)
      · -- synthStmt
        intro st stmt ctxs out h hin
        cases ctxs with
        | nil =>
            simp only [synthStmt] at h
            have heq := except_pure_ok h
            subst heq
            intro c hc
            simp at hc
        | cons ctx rest =>
            cases stmt with
            | Assignment target expr =>
                simp only [synthStmt] at h
                obtain ⟨results, h1, h2⟩ := except_bind_ok h
                obtain ⟨rest', h3, h4⟩ := except_bind_ok h2
                have heq := except_pure_ok h4
                subst heq
                have hctx : CtxWF ctx := hin ctx (List.mem_cons_self _ _)
                have hres := ihEv st expr ctx results h1 hctx
                have hrest := ihSt st (.Assignment target expr) rest rest' h3
                  (fun c hc => hin c (List.mem_cons_of_mem _ hc))
                intro c hc
                rcases List.mem_append.mp hc with hc | hc
                · rcases List.mem_map.mp hc with ⟨r, hr, hcr⟩
                  obtain ⟨⟨hg, hv⟩, _, hid⟩ := hres r hr
                  subst hcr
                  exact ⟨hg, alInsert_forall hv hid⟩
                · exact hrest c hc
            | Return e =>
                simp only [synthStmt] at h
                obtain ⟨rest', h3, h4⟩ := except_bind_ok h
                have heq := except_pure_ok h4
                subst heq
                intro c hc
                rcases List.mem_cons.mp hc with hc | hc
                · subst hc
                  exact hin _ (List.mem_cons_self _ _)
                · exact ihSt st (.Return e) rest rest' h3
                    (fun c hc => hin c (List.mem_cons_of_mem _ hc)) c hc
      · -- evaluate_expr
        intro st e ctx results h hctx
        cases e with
        | call path args =>
            cases hl : path.getLast? with
            | none => simp [evaluate_expr, hl] at h
            | some name =>
                simp only [evaluate_expr, hl] at h
                obtain ⟨states, h1, h2⟩ := except_bind_ok h
                obtain ⟨pre, h3, h4⟩ := except_bind_ok h2
                have hbase : ∀ s ∈ [(ctx, ([] : List ArgResult))], StateOK ctx.graph s := by
                  intro s hs
                  rw [List.mem_singleton.mp hs]
                  exact ⟨hctx, graphLE_refl _, by simp⟩
                have hstates := ihAr st args ctx.graph [(ctx, [])] states h1 hbase
                split at h4
                · simp at h4
                · have heq := except_pure_ok h4
                  subst heq
                  intro r hr
                  exact ihDS st name args.isEmpty ctx.graph states pre h3 hstates r hr
        | identifier ident =>
            cases hv : alLookup ctx.vars ident with
            | some v =>
                simp only [evaluate_expr, hv] at h
                have heq := except_pure_ok h
                subst heq
                intro r hr
                rw [List.mem_singleton.mp hr]
                refine ⟨hctx, graphLE_refl _, ?_⟩
                obtain ⟨k, hk⟩ := alLookup_mem hv
                exact hctx.2 (k, v) hk
            | none =>
                cases ht : alLookup st.types ident with
                | some ty =>
                    simp only [evaluate_expr, hv, ht] at h
                    have heq := except_pure_ok h
                    subst heq
                    intro r hr
                    rw [List.mem_singleton.mp hr]
                    have hnode : ∀ a ∈ nodeArgs (.source ("Universe(" ++ ident ++ ")") ident),
                        a < ctx.graph.nodes.length := by simp [nodeArgs]
                    obtain ⟨hc', hle', hid'⟩ := CtxWF_add_node hctx hnode
                    exact ⟨hc', hle', hid'⟩
                | none =>
                    cases hfl : alLookup st.flows ident with
                    | some flow =>
                        simp only [evaluate_expr, hv, ht, hfl] at h
                        obtain ⟨fcs, h1, h2⟩ := except_bind_ok h
                        cases hh : fcs.head? with
                        | none =>
                            simp only [hh] at h2
                            simp at h2
                        | some final =>
                            simp only [hh] at h2
                            cases hres : alLookup final.vars "result" with
                            | none =>
                                simp only [hres] at h2
                                simp at h2
                            | some res =>
                                simp only [hres] at h2
                                have heq := except_pure_ok h2
                                subst heq
                                intro r hr
                                rw [List.mem_singleton.mp hr]
                                have hnode : ∀ a ∈ nodeArgs
                                    (.source ("FlowResult(" ++ ident ++ ")") "FlowRefernce"),
                                    a < ctx.graph.nodes.length := by simp [nodeArgs]
                                obtain ⟨hc', hle', hid'⟩ := CtxWF_add_node hctx hnode
                                exact ⟨hc', hle', hid'⟩
                    | none => simp [evaluate_expr, hv, ht, hfl] at h
        | literal lit =>
            simp only [evaluate_expr] at h
            have heq := except_pure_ok h
            subst heq
            intro r hr
            rw [List.mem_singleton.mp hr]
            have hnode : ∀ (s : String), ∀ a ∈ nodeArgs (.constant s "Constant"),
                a < ctx.graph.nodes.length := by simp [nodeArgs]
            obtain ⟨hc', hle', hid'⟩ := CtxWF_add_node hctx (hnode _)
            exact ⟨hc', hle', hid'⟩
        | binaryOp l op r0 =>
            simp only [evaluate_expr] at h
            exact ihEv st _ ctx results h hctx
        | otherExpr =>
            simp only [evaluate_expr] at h
            have heq := except_pure_ok h
            subst heq
            intro r hr
            simp at hr
      · -- evalArgStates
        intro st nm v g0 states out h hin
        cases states with
        | nil =>
            simp only [evalArgStates] at h
            have heq := except_pure_ok h
            subst heq
            intro s hs
            simp at hs
        | cons sp rest =>
            obtain ⟨ctx, prev⟩ := sp
            simp only [evalArgStates] at h
            obtain ⟨res, h1, h2⟩ := except_bind_ok h
            obtain ⟨rest', h3, h4⟩ := except_bind_ok h2
            have heq := except_pure_ok h4
            subst heq
            have hsp := hin (ctx, prev) (List.mem_cons_self _ _)
            have hres := ihEv st v ctx res h1 hsp.1
            have hrest := ihAS st nm v g0 rest rest' h3
              (fun s hs => hin s (List.mem_cons_of_mem _ hs))
            intro s hs
            rcases List.mem_append.mp hs with hs | hs
            · rcases List.mem_map.mp hs with ⟨r, hr, hsr⟩
              subst hsr
              obtain ⟨hcr, hler, hidr⟩ := hres r hr
              refine ⟨hcr, graphLE_trans hsp.2.1 hler, ?_⟩
              intro a ha
              rcases List.mem_append.mp ha with ha | ha
              · exact lt_of_lt_of_le (hsp.2.2 a ha) (graphLE_length hler)
              · rw [List.mem_singleton.mp ha]
                exact hidr
            · exact hrest s hs
      · -- evalArgs
        intro st args g0 states out h hin
        cases args with
        | nil =>
            simp only [evalArgs] at h
            have heq := except_pure_ok h
            subst heq
            exact hin
        | cons a rest =>
            simp only [evalArgs] at h
            obtain ⟨next, h1, h2⟩ := except_bind_ok h
            exact ihAr st rest g0 next out h2 (ihAS st a.1 a.2 g0 states next h1 hin)
      · -- dispatchStates
        intro st name aE g0 states out h hin
        cases states with
        | nil =>
            simp only [dispatchStates] at h
            have heq := except_pure_ok h
            subst heq
            intro r hr
            simp at hr
        | cons sp rest =>
            obtain ⟨ctx, args⟩ := sp
            simp only [dispatchStates] at h
            obtain ⟨here, h1, h2⟩ := except_bind_ok h
            obtain ⟨rest', h3, h4⟩ := except_bind_ok h2
            have heq := except_pure_ok h4
            subst heq
            intro r hr
            rcases List.mem_append.mp hr with hr | hr
            · exact ihDO st name aE g0 ctx args here h1
                (hin (ctx, args) (List.mem_cons_self _ _)) r hr
            · exact ihDS st name aE g0 rest rest' h3
                (fun s hs => hin s (List.mem_cons_of_mem _ hs)) r hr
      · -- dispatchOneState
        intro st name aE g0 ctx args out h hst
        cases hb : alLookup st.behaviors name with
        | none =>
            simp only [dispatchOneState, hb] at h
            exact ihDF st name aE g0 ctx args out h hst
        | some beh =>
            simp only [dispatchOneState, hb] at h
            by_cases hm : check_args_match beh.args args = true
            · rw [if_pos hm] at h
              have heq := except_pure_ok h
              subst heq
              have hids : ∀ i ∈ args.map (fun a => a.node_id),
                  i < ctx.graph.nodes.length := by
                intro i hi
                rcases List.mem_map.mp hi with ⟨a, ha, hia⟩
                rw [← hia]
                exact hst.2.2 a ha
              obtain ⟨hc1, hle1, _, hfn⟩ := behaviorFnLoop_wf st beh.return_type args
                (args.map (fun a => a.node_id)) g0 st.functions ctx hst.1 hst.2.1 hids
              obtain ⟨_, _, hvar⟩ := variantLoop_wf beh.return_type g0
                (collect_variants st beh.return_type) _ hc1 hle1
              intro r hr
              rcases List.mem_append.mp hr with hr | hr
              · exact hfn r hr
              · exact hvar r hr
            · rw [if_neg hm] at h
              exact ihDF st name aE g0 ctx args out h hst
      · -- dispatchFallback
        intro st name aE g0 ctx args out h hst
        cases hfn : alLookup st.functions name with
        | none =>
            simp only [dispatchFallback, hfn] at h
            exact ihFl st name aE g0 ctx out h hst.1 hst.2.1
        | some func =>
            simp only [dispatchFallback, hfn] at h
            by_cases hm : check_args_match func.params args = true
            · rw [if_pos hm] at h
              have heq := except_pure_ok h
              subst heq
              intro r hr
              rw [List.mem_singleton.mp hr]
              have hnode : ∀ a ∈ nodeArgs
                  (.operation (.functionCall func.name) (args.map (fun a => a.node_id))),
                  a < ctx.graph.nodes.length := by
                intro a ha
                simp only [nodeArgs] at ha
                rcases List.mem_map.mp ha with ⟨x, hx, hxa⟩
                rw [← hxa]
                exact hst.2.2 x hx
              obtain ⟨hc', hle', hid'⟩ := CtxWF_add_node hst.1 hnode
              exact ⟨hc', graphLE_trans hst.2.1 hle', hid'⟩
            · rw [if_neg hm] at h
              exact ihFl st name aE g0 ctx out h hst.1 hst.2.1
      · -- dispatchFlow
        intro st name aE g0 ctx out h hctx hle
        cases hfl : alLookup st.flows name with
        | none =>
            simp only [dispatchFlow, hfl] at h
            have heq := except_pure_ok h
            subst heq
            intro r hr
            simp at hr
        | some flow =>
            simp only [dispatchFlow, hfl] at h
            by_cases hae : aE = true
            · rw [if_pos hae] at h
              obtain ⟨fcs, h1, h2⟩ := except_bind_ok h
              have heq := except_pure_ok h2
              subst heq
              exact flowImport_wf name g0 fcs ctx hctx hle
            · rw [if_neg hae] at h
              have heq := except_pure_ok h
              subst heq
              intro r hr
              simp at hr

/-- Witness table for C9: one universe type and a one-assignment
flow. -/
def c9Table : SymbolTable :=
  { types := [("T", ⟨"T", Option.none, [], Option.none⟩)], behaviors := [], functions := [],
    flows := [("main", ⟨"main", [.Assignment "x" (.identifier "T")]⟩)] }

/-- The context synthesized from `c9Table`'s flow. -/
def c9Ctx : Context :=
  ⟨[("x", ⟨"x", {[Atom.ty "T"]}, 0⟩)], ⟨[.source "Universe(T)" "T"]⟩⟩

/-- C9: node ids are the dense indices `0..n-1` assigned monotonically
in insertion order (`add_node` appends and returns the old length, so a
node's id is its index), and in every context produced by synthesizing
a flow each node's argument ids are strictly smaller than the node's
own id — hence every graph is acyclic and its node order is a valid
topological order. -/
theorem c9_graph_invariants :
    (∀ (g : ExecutionGraph) (n : ExecutionNode),
      g.add_node n = ({ nodes := g.nodes ++ [n] }, g.nodes.length)) ∧
    (∀ (st : SymbolTable) (fuel : Nat) (flow_name : String) (ctxs : List Context),
      synthesize st fuel flow_name = .ok ctxs → ∀ ctx ∈ ctxs, graphWF ctx.graph) := by
  refine ⟨fun g n => rfl, fun st fuel flow_name ctxs h ctx hc => ?_⟩
  exact ((synthesis_wf fuel).1 st flow_name ctxs h ctx hc).1

/-- C9 witness: the concrete graph synthesized from `c9Table` is
well-formed. -/
theorem c9_witness : graphWF c9Ctx.graph :=
  c9_graph_invariants.2 c9Table 10 "main" [c9Ctx] (by decide) c9Ctx (by simp)

/-! ## Claim C10 -/

/-- C10: an argument whose `ConstraintSet` is empty satisfies every
parameter constraint — the per-chain subsumption check quantifies over
the argument's chains and is vacuously true — so such an argument never
by itself rejects a candidate (here: a one-parameter candidate accepts
it outright). -/
theorem c10_empty_argument_matches :
    (∀ (req : TypedArg) (prov : ArgResult),
      prov.constraint_set = ∅ → argSatisfies prov req = true) ∧
    (∀ (req : TypedArg) (id : Nat),
      check_args_match [req] [⟨id, (∅ : ConstraintSet), Option.none⟩] = true) := by
  have hsat : ∀ (req : TypedArg) (prov : ArgResult),
      prov.constraint_set = ∅ → argSatisfies prov req = true := by
    intro req prov h
    simp [argSatisfies, h]
  refine ⟨hsat, fun req id => ?_⟩
  simp [check_args_match, orderProvided, alRemove, List.filter,
    hsat req ⟨id, (∅ : ConstraintSet), Option.none⟩ rfl]

/-- C10 witness: a concrete empty-set argument against the parameter
constraint `Atom "P"`. -/
theorem c10_witness :
    argSatisfies ⟨0, (∅ : ConstraintSet), Option.none⟩ ⟨"x", .atom "P"⟩ = true :=
  c10_empty_argument_matches.1 ⟨"x", .atom "P"⟩ ⟨0, (∅ : ConstraintSet), Option.none⟩ rfl

end Comet
